import Mathlib

/-!
Verification development for the Hangomongo movie-search bot.

The definitions below are a shallow embedding of the search core in
`src/database.py`: the text normalizer `clean_text_for_search`, the phonetic
normalizer `_normalize_for_fuzzy`, the consonant signature
`_consonant_signature`, the candidate ranker `_process_fuzzy_candidates`, the
fuzzy stage of `super_search_movies_advanced`, and the record construction of
`add_movie`.

Strings are modelled as lists of characters.  Python's regular-expression
operations used by the source (`re.sub` with the concrete patterns
appearing in `database.py`) are implemented directly as recursive functions
with Python's leftmost, backtracking match semantics.  Character classes are
modelled over ASCII (`\d` is `0-9`, `\s` is ASCII whitespace, `\w` is ASCII
alphanumerics plus underscore); all concrete inputs used in the theorems are
ASCII, where this coincides with Python's behaviour.

The similarity scorers from the external `thefuzz` library (which the source
imports and which delegates to `rapidfuzz`) are modelled after the published
semantics of `thefuzz` 2.x / `rapidfuzz`: indel (longest-common-subsequence)
normalized similarity, sliding-window best alignment, token sort/set
variants, and the weighted combination `WRatio`, with exact rational
arithmetic and round-half-to-even in place of IEEE floats.
-/

/-- Python `str.lower` restricted to ASCII letters (code points 65-90 map
to 97-122; all concrete inputs used below are ASCII). -/
def pyLower (c : Char) : Char :=
  if 65 ≤ c.toNat ∧ c.toNat ≤ 90 then Char.ofNat (c.toNat + 32) else c

/-- Characters kept by the `[^a-z0-9]` character classes of the source
(lower-case letters `a`-`z` and digits `0`-`9`). -/
def isLowerAlnum (c : Char) : Bool :=
  (97 ≤ c.toNat && c.toNat ≤ 122) || (48 ≤ c.toNat && c.toNat ≤ 57)

/-- ASCII alphanumeric characters. -/
def isAsciiAlnum (c : Char) : Bool :=
  (97 ≤ c.toNat && c.toNat ≤ 122) || (65 ≤ c.toNat && c.toNat ≤ 90) ||
    (48 ≤ c.toNat && c.toNat ≤ 57)

/-- Python's `\d` over ASCII. -/
def digitCh (c : Char) : Bool := 48 ≤ c.toNat && c.toNat ≤ 57

/-- Python's `\w` over ASCII: letters, digits and underscore (code 95). -/
def wordCh (c : Char) : Bool := isAsciiAlnum c || c.toNat = 95

/-- Python's `\s` over ASCII: space, tab, newline, carriage return,
vertical tab, form feed. -/
def pyIsSpace (c : Char) : Bool :=
  c.toNat = 32 || c.toNat = 9 || c.toNat = 10 || c.toNat = 13 ||
    c.toNat = 11 || c.toNat = 12

/-- Vowels removed by `_consonant_signature`. -/
def isVowel (c : Char) : Bool :=
  c = 'a' || c = 'e' || c = 'i' || c = 'o' || c = 'u'

/-- Worker for `collapseRuns`.  The flag records whether we are inside a run
of characters satisfying `p` whose single replacement space has already been
emitted. -/
def collapseRunsAux (p : Char → Bool) : List Char → Bool → List Char
  | [], _ => []
  | c :: rest, inRun =>
    if p c then
      if inRun then collapseRunsAux p rest true
      else ' ' :: collapseRunsAux p rest true
    else c :: collapseRunsAux p rest false

/-- Python `re.sub` of `X+` by a single space, for a character class `p`:
every maximal run of characters satisfying `p` becomes one space.  This
implements both `re.sub(r'[^a-z0-9]+', ' ', text)` and
`re.sub(r'\s+', ' ', text)` from `clean_text_for_search`. -/
def collapseRuns (p : Char → Bool) (l : List Char) : List Char :=
  collapseRunsAux p l false

/-- Python `str.strip`: drop ASCII whitespace from both ends. -/
def stripL (l : List Char) : List Char :=
  (((l.dropWhile pyIsSpace).reverse).dropWhile pyIsSpace).reverse

/-- Tail of the season pattern after the literal `s`/`season`:
`\s*\d{1,2}\b` with Python's greedy, backtracking semantics.  Returns the
rest of the input after the match, or `none`. -/
def afterDigits (l : List Char) : Option (List Char) :=
  match l.dropWhile pyIsSpace with
  | [] => none
  | d1 :: t1 =>
    if digitCh d1 then
      match t1 with
      | [] => some []
      | d2 :: t2 =>
        if digitCh d2 then
          -- two digits taken; `\b` must hold after them
          match t2 with
          | [] => some []
          | c3 :: _ => if wordCh c3 then none else some t2
        else
          -- a single digit; `\b` must hold after it
          if wordCh d2 then none else some t1
    else none

/-- One attempt to match `(s|season)\s*\d{1,2}\b` at the head of `l`
(the alternation tries the literal `s` first, as Python's `re` does, and
falls back to `season`).  The leading `\b` is checked by the caller.
Returns the remainder of the input after the match. -/
def trySeason : List Char → Option (List Char)
  | [] => none
  | c :: rest =>
    if c = 's' then
      match afterDigits rest with
      | some rem => some rem
      | none =>
        if rest.take 5 = ['e', 'a', 's', 'o', 'n'] then
          afterDigits (rest.drop 5)
        else none
    else none

/-- Worker for `seasonStrip`, scanning left to right as `re.sub` does.
`prevW` records whether the previous character of the original string was a
word character (for the leading `\b`); the fuel argument bounds the
recursion and is initialised with the length of the input, which the scan
never exhausts. -/
def seasonStripAux : Nat → Bool → List Char → List Char
  | 0, _, l => l
  | _ + 1, _, [] => []
  | fuel + 1, prevW, c :: rest =>
    if !prevW && c = 's' then
      match trySeason (c :: rest) with
      | some rem => seasonStripAux fuel true rem
      | none => c :: seasonStripAux fuel (wordCh c) rest
    else c :: seasonStripAux fuel (wordCh c) rest

/-- Python `re.sub(r'\b(s|season)\s*\d{1,2}\b', '', text)`: delete every
(leftmost, non-overlapping) season/episode marker. -/
def seasonStrip (l : List Char) : List Char :=
  seasonStripAux l.length false l

/-- The character-list pipeline of `clean_text_for_search`
(`src/database.py`, lines 24-31): lowercase, collapse non-alphanumeric runs
to one space, delete season markers, collapse whitespace runs, strip. -/
def cleanL (l : List Char) : List Char :=
  stripL (collapseRuns pyIsSpace
    (seasonStrip (collapseRuns (fun c => !isLowerAlnum c) (l.map pyLower))))

/-- `clean_text_for_search` from `src/database.py` (lines 20-31) on string
input.  The `if not text` guard of the source is the `if s = ""` test here;
the `None` case of that guard is modelled by `clean_text_for_search_opt`. -/
def clean_text_for_search (s : String) : String :=
  if s = "" then "" else String.mk (cleanL s.data)

/-- `clean_text_for_search` including the null (`None`) input admitted by
the source's `if not text: return ""` guard. -/
def clean_text_for_search_opt : Option String → String
  | none => ""
  | some s => clean_text_for_search s

/-- Python `str.replace(pat, repl)` (all non-overlapping occurrences, left
to right, replaced text not rescanned), with fuel bounding the recursion;
`replaceAll` initialises the fuel with the input length, which suffices for
any non-empty pattern. -/
def replaceAllAux (pat repl : List Char) : Nat → List Char → List Char
  | 0, l => l
  | _ + 1, [] => []
  | fuel + 1, c :: rest =>
    if pat.isPrefixOf (c :: rest) then
      repl ++ replaceAllAux pat repl fuel (List.drop (pat.length - 1) rest)
    else
      c :: replaceAllAux pat repl fuel rest

/-- Python `str.replace` for a non-empty pattern. -/
def replaceAll (pat repl l : List Char) : List Char :=
  replaceAllAux pat repl l.length l

/-- `_normalize_for_fuzzy` from `src/database.py` (lines 33-42): lowercase,
turn each character outside `[a-z0-9]` into a space, collapse whitespace,
strip, then apply the fixed chain of spelling substitutions in source
order. -/
def normalize_for_fuzzy (s : String) : String :=
  let t := s.data.map pyLower
  let t := t.map fun c => if isLowerAlnum c then c else ' '
  let t := stripL (collapseRuns pyIsSpace t)
  let t := replaceAll ['p', 'h'] ['f'] t
  let t := replaceAll ['a', 'a'] ['a'] t
  let t := replaceAll ['k', 'h'] ['k'] t
  let t := replaceAll ['g', 'h'] ['g'] t
  let t := replaceAll ['c', 'k'] ['k'] t
  let t := replaceAll ['c', 'q'] ['k'] t
  let t := replaceAll ['q', 'u'] ['k'] t
  let t := replaceAll ['q'] ['k'] t
  let t := replaceAll ['x'] ['k', 's'] t
  let t := replaceAll ['c'] ['k'] t
  String.mk t

/-- `_consonant_signature` from `src/database.py` (lines 44-49): normalize,
then delete vowels and whitespace. -/
def consonant_signature (s : String) : String :=
  String.mk (((normalize_for_fuzzy s).data.filter fun c => !isVowel c).filter
    fun c => !pyIsSpace c)

/-- Python `str.split()` (split on whitespace runs, no empty tokens), used
for `q_clean.split()` in the ranker. -/
def pySplitAux : List Char → List Char → List String
  | [], cur => if cur = [] then [] else [String.mk cur.reverse]
  | c :: rest, cur =>
    if pyIsSpace c then
      if cur = [] then pySplitAux rest []
      else String.mk cur.reverse :: pySplitAux rest []
    else pySplitAux rest (c :: cur)

/-- Python `str.split()` on a string. -/
def pySplit (s : String) : List String := pySplitAux s.data []

/-- Python's substring test `t in s`. -/
def isSubstr (t s : List Char) : Bool :=
  match s with
  | [] => t = []
  | _ :: rest => t.isPrefixOf s || isSubstr t rest

/-- Substring test on strings. -/
def isSubstrS (t s : String) : Bool := isSubstr t.data s.data

example : clean_text_for_search "Movie Season 1" = "movie" := by decide
example : clean_text_for_search "  The-Dark..Knight (2008)!" = "the dark knight 2008" := by decide
example : clean_text_for_search "Movie S01" = "movie" := by decide
example : clean_text_for_search "s s1 1" = "s 1" := by decide
example : clean_text_for_search "s 1" = "" := by decide
example : clean_text_for_search "season 1" = "" := by decide
example : clean_text_for_search "seasons 1" = "seasons 1" := by decide
example : normalize_for_fuzzy "Kantara" = "kantara" := by decide
example : consonant_signature "kantara" = "kntr" := by decide
example : consonant_signature "Movie Season 1" = "mvssn1" := by decide
example : consonant_signature "season 1" = "ssn1" := by decide
example : normalize_for_fuzzy "Khiladi" = "kiladi" := by decide
example : normalize_for_fuzzy "queen" = "keen" := by decide
example : normalize_for_fuzzy "xerox" = "kseroks" := by decide
example : pySplit " dark  knight " = ["dark", "knight"] := by decide
example : isSubstrS "ark" "dark knight" = true := by decide
example : isSubstrS "" "dark" = true := by decide
example : isSubstrS "kk" "dark" = false := by decide

/-! ### Model of the external `thefuzz` similarity scorers

`src/database.py` imports `fuzz` from the `thefuzz` package, which delegates
to `rapidfuzz`.  The definitions below follow those libraries' published
semantics: similarity is indel similarity (`2 * lcs / (len1 + len2)`),
`partial_ratio` is the best similarity of the shorter string against the
sliding windows of the longer, the token variants compare sorted or
deduplicated token joins, and `WRatio` is their weighted maximum.  Scores
are exact nonnegative rationals on a 0-100 scale, represented as unreduced
`Nat` fractions and compared by cross-multiplication, rounded half-to-even
by the `thefuzz` wrappers, in place of Python floats. -/

/-- Length of a longest common subsequence, with fuel (initialised to the
total length, which the recursion never exhausts). -/
def lcsF : Nat → List Char → List Char → Nat
  | 0, _, _ => 0
  | _ + 1, [], _ => 0
  | _ + 1, _ :: _, [] => 0
  | fuel + 1, a :: as, b :: bs =>
    if a = b then lcsF fuel as bs + 1
    else max (lcsF fuel (a :: as) bs) (lcsF fuel as (b :: bs))

/-- Length of a longest common subsequence of two character lists. -/
def lcs (a b : List Char) : Nat := lcsF (a.length + b.length) a b

/-- Indel distance (insertions plus deletions). -/
def indelDist (a b : List Char) : Nat := a.length + b.length - 2 * lcs a b

/-- An exact nonnegative score: the rational `num / den` (all fractions
built below have a positive denominator). -/
structure Frac where
  num : Nat
  den : Nat
deriving DecidableEq, Repr

/-- Value comparison of fractions by cross-multiplication. -/
def fle (a b : Frac) : Bool := a.num * b.den ≤ b.num * a.den

/-- Maximum by value. -/
def fmax (a b : Frac) : Frac := if fle a b then b else a

/-- Does the fraction have value exactly 100? -/
def fIs100 (a : Frac) : Bool := a.num = 100 * a.den

/-- Maximum of a list of scores, starting from `0` (as `rapidfuzz`'s
`partial_ratio` does). -/
def maxFList (l : List Frac) : Frac := l.foldl fmax ⟨0, 1⟩

/-- Scale by `95/100` (the `UNBASE_SCALE` of `WRatio`). -/
def fscale95 (a : Frac) : Frac := ⟨95 * a.num, 100 * a.den⟩

/-- Scale by `9/10` (the partial scale of `WRatio` for moderate length
ratios). -/
def fscale910 (a : Frac) : Frac := ⟨9 * a.num, 10 * a.den⟩

/-- Scale by `3/5` (the partial scale of `WRatio` for extreme length
ratios). -/
def fscale35 (a : Frac) : Frac := ⟨3 * a.num, 5 * a.den⟩

/-- Round half to even (Python's `round` on a nonnegative value). -/
def roundF (a : Frac) : Nat :=
  let q := a.num / a.den
  let r := a.num % a.den
  if a.den < 2 * r then q + 1
  else if 2 * r < a.den then q
  else if q % 2 = 0 then q else q + 1

/-- `rapidfuzz` `ratio`: indel similarity on a 0-100 scale (`100` for two
empty strings). -/
def ratioF (a b : List Char) : Frac :=
  if a.length + b.length = 0 then ⟨100, 1⟩
  else ⟨200 * lcs a b, a.length + b.length⟩

/-- The characters removed by `thefuzz`'s `ascii_only` (a translation table
deleting code points 128-255). -/
def asciiOnly (l : List Char) : List Char :=
  l.filter fun c => !(128 ≤ c.toNat && c.toNat < 256)

/-- `rapidfuzz` `default_process` (used by `thefuzz.full_process`): replace
every non-alphanumeric character by a space, lowercase, and trim. -/
def defaultProcessL (l : List Char) : List Char :=
  stripL (l.map fun c => if isAsciiAlnum c then pyLower c else ' ')

/-- `thefuzz` `full_process` with `force_ascii=True`, applied by the
`WRatio`, `token_sort_ratio` and `token_set_ratio` wrappers. -/
def fullProcess (s : String) : List Char := defaultProcessL (asciiOnly s.data)

/-- The windows of the longer string scanned by `rapidfuzz`
`partial_ratio` for a needle of length `len1`: the proper prefixes of
length `1..len1-1`, all full windows of length `len1`, and the proper
suffixes of length `len1-1..1`. -/
def pWindows (len1 : Nat) (lo : List Char) : List (List Char) :=
  ((List.range' 1 (len1 - 1)).map fun i => lo.take i)
    ++ ((List.range (lo.length - len1 + 1)).map fun i => (lo.drop i).take len1)
    ++ ((List.range' (lo.length - len1 + 1) (len1 - 1)).map fun i => lo.drop i)

/-- One direction of `rapidfuzz` `partial_ratio`: best indel similarity of
the needle `sh` against the windows of `lo` (0 for an empty needle). -/
def pRatioImplF (sh lo : List Char) : Frac :=
  if sh = [] then ⟨0, 1⟩
  else maxFList ((pWindows sh.length lo).map fun w => ratioF sh w)

/-- `rapidfuzz` `partial_ratio` on a 0-100 scale: the shorter string is the
needle; for equal lengths both directions are tried unless the first
already yields 100. -/
def pRatioF (a b : List Char) : Frac :=
  let sh := if a.length ≤ b.length then a else b
  let lo := if a.length ≤ b.length then b else a
  let r := pRatioImplF sh lo
  if !fIs100 r && a.length == b.length then fmax r (pRatioImplF lo sh) else r

/-- Code-point lexicographic strict comparison of character lists
(Python's `str` order). -/
def charListLt : List Char → List Char → Bool
  | [], [] => false
  | [], _ :: _ => true
  | _ :: _, [] => false
  | a :: as, b :: bs =>
    if a.toNat < b.toNat then true
    else if b.toNat < a.toNat then false
    else charListLt as bs

/-- Comparison used to sort tokens (code-point lexicographic, Python's
string order for the token joins). -/
def strLtB (a b : String) : Bool := charListLt a.data b.data

/-- Stable insertion of `x` into `l`: `x` goes before the first element
not strictly below it (so equal elements keep their original order, as in
Python's stable `sorted`). -/
def insertStable {α : Type} (lt : α → α → Bool) (x : α) : List α → List α
  | [] => [x]
  | h :: t => if lt h x then h :: insertStable lt x t else x :: h :: t

/-- Stable insertion sort by a strict comparison, equal to Python's stable
`list.sort` with the corresponding key. -/
def sortByLt {α : Type} (lt : α → α → Bool) (l : List α) : List α :=
  l.foldr (insertStable lt) []

/-- Whitespace-join of tokens. -/
def joinTokens (ts : List String) : List Char :=
  List.intercalate [' '] (ts.map String.data)

/-- Tokens of a processed string, sorted (duplicates kept), joined with
single spaces: the string compared by `token_sort_ratio`. -/
def sortJoin (l : List Char) : List Char :=
  joinTokens (sortByLt strLtB (pySplit (String.mk l)))

/-- Remove adjacent duplicates of a sorted token list. -/
def dedupSorted : List String → List String
  | [] => []
  | [x] => [x]
  | x :: y :: t => if x = y then dedupSorted (y :: t) else x :: dedupSorted (y :: t)

/-- Sorted set of tokens of a processed string. -/
def uniqTokens (l : List Char) : List String :=
  dedupSorted (sortByLt strLtB (pySplit (String.mk l)))

/-- `rapidfuzz` `token_sort_ratio` on processed strings. -/
def tokenSortF (a b : List Char) : Frac := ratioF (sortJoin a) (sortJoin b)

/-- `rapidfuzz` `token_set_ratio` on processed strings: 100 when the token
sets are in a non-trivial containment relation, otherwise the best of the
similarity of the two difference joins (each normalized as if it carried
the common part) and the two containment ratios. -/
def tokenSetF (a b : List Char) : Frac :=
  let ta := uniqTokens a
  let tb := uniqTokens b
  let sect := ta.filter fun t => tb.contains t
  let dab := ta.filter fun t => !tb.contains t
  let dba := tb.filter fun t => !ta.contains t
  if sect ≠ [] ∧ (dab = [] ∨ dba = []) then ⟨100, 1⟩
  else
    let sectLen := (joinTokens sect).length
    let abJ := joinTokens dab
    let baJ := joinTokens dba
    let sep : Nat := if sectLen = 0 then 0 else 1
    let sectAb := sectLen + sep + abJ.length
    let sectBa := sectLen + sep + baJ.length
    let r1 : Frac :=
      if sectAb + sectBa = 0 then ⟨100, 1⟩
      else ⟨100 * ((sectAb + sectBa) - indelDist abJ baJ), sectAb + sectBa⟩
    if sectLen = 0 then r1
    else
      fmax r1 (fmax
        ⟨100 * ((sectLen + sectAb) - (sep + abJ.length)), sectLen + sectAb⟩
        ⟨100 * ((sectLen + sectBa) - (sep + baJ.length)), sectLen + sectBa⟩)

/-- `rapidfuzz` `token_ratio`: best of sort and set variants. -/
def tokenRatioF (a b : List Char) : Frac := fmax (tokenSortF a b) (tokenSetF a b)

/-- `rapidfuzz` `partial_token_ratio`: 100 when the strings share a token,
otherwise the best partial ratio of the sorted joins and of the
deduplicated joins. -/
def partialTokenRatioF (a b : List Char) : Frac :=
  let ta := uniqTokens a
  let tb := uniqTokens b
  if ta.any (fun t => tb.contains t) then ⟨100, 1⟩
  else fmax (pRatioF (sortJoin a) (sortJoin b)) (pRatioF (joinTokens ta) (joinTokens tb))

/-- `rapidfuzz` `WRatio` on processed strings: 0 when either side is
empty; for similar lengths (ratio below 3/2) the best of `ratio` and
scaled `token_ratio`; otherwise also the scaled partial variants, with the
partial scale dropping from 9/10 to 3/5 when one side is more than 8 times
longer. -/
def wRatioF (a b : List Char) : Frac :=
  if a = [] ∨ b = [] then ⟨0, 1⟩
  else
    let len1 := a.length
    let len2 := b.length
    let base := ratioF a b
    if 2 * max len1 len2 < 3 * min len1 len2 then
      fmax base (fscale95 (tokenRatioF a b))
    else if max len1 len2 < 8 * min len1 len2 then
      fmax base (fmax (fscale910 (pRatioF a b)) (fscale95 (fscale910 (partialTokenRatioF a b))))
    else
      fmax base (fmax (fscale35 (pRatioF a b)) (fscale95 (fscale35 (partialTokenRatioF a b))))

/-- `thefuzz` `fuzz.WRatio` (full processing, rounded). -/
def fuzzWRatio (s1 s2 : String) : Nat :=
  roundF (wRatioF (fullProcess s1) (fullProcess s2))

/-- `thefuzz` `fuzz.token_set_ratio` (full processing, rounded). -/
def fuzzTokenSet (s1 s2 : String) : Nat :=
  roundF (tokenSetF (fullProcess s1) (fullProcess s2))

/-- `thefuzz` `fuzz.token_sort_ratio` (full processing, rounded). -/
def fuzzTokenSort (s1 s2 : String) : Nat :=
  roundF (tokenSortF (fullProcess s1) (fullProcess s2))

/-- `thefuzz` `fuzz.partial_ratio` (no processing, rounded). -/
def fuzzPartial (s1 s2 : String) : Nat :=
  roundF (pRatioF s1.data s2.data)

example : fuzzWRatio "movie" "" = 0 := by decide
example : fuzzTokenSet "Movie Season 1" "season 1" = 100 := by decide
example : fuzzWRatio "titanic" "titanic" = 100 := by decide
example : fuzzPartial "mvssn1" "ssn1" = 100 := by decide
example : fuzzPartial "movie" "" = 0 := by decide
example : fuzzTokenSort "a" "a" = 100 := by decide
example : fuzzTokenSet "a" "a" = 100 := by decide
example : fuzzPartial "" "" = 0 := by decide

/-! ### The candidate ranker `_process_fuzzy_candidates`

Embedding of `src/database.py`, lines 51-102, split into the named stages
that the theorems below refer to (per-candidate scoring, sorting, threshold
filtering, output projection), plus the fuzzy stage of
`super_search_movies_advanced` (lines 409-414) and the record construction
of `add_movie` (lines 425-454). -/

/-- A candidate row `(imdb_id, title, clean_title)` as fetched by
`super_search_movies_advanced` and fed to `_process_fuzzy_candidates`. -/
structure Candidate where
  imdbId : String
  title : String
  cleanTitle : String
deriving DecidableEq, Repr

/-- An entry `(score, imdb_id, title)` of the ranker's internal `results`
list. -/
structure ScoredEntry where
  score : Nat
  imdbId : String
  title : String
deriving DecidableEq, Repr

/-- An output entry `{'imdb_id': ..., 'title': ...}`. -/
structure SearchResult where
  imdbId : String
  title : String
deriving DecidableEq, Repr

/-- The five similarity scores of lines 77-86 and their maximum (line 89):
`WRatio` of `clean_title` against the cleaned query, token-set and
token-sort similarity of the raw title against the raw query, partial
similarity of `clean_title` against the cleaned query, and partial
similarity of the consonant signatures. -/
def baseScoreOf (query qClean qCons : String) (c : Candidate) : Nat :=
  max (fuzzWRatio c.cleanTitle qClean)
    (max (fuzzTokenSet c.title query)
      (max (fuzzTokenSort c.title query)
        (max (fuzzPartial c.cleanTitle qClean)
          (fuzzPartial (consonant_signature c.title) qCons))))

/-- The loop body of `_process_fuzzy_candidates` (lines 68-95) for one
candidate: skip candidates with an empty `clean_title`; compute the
`WRatio` of `clean_title` against the cleaned query and drop the candidate
when it is below 40; otherwise compute the remaining four similarity
scores, take the maximum, and add the all-tokens containment bonus
(+3, capped at 100). -/
def scoreCandidate (query qClean qCons : String) (tokens : List String)
    (c : Candidate) : Option ScoredEntry :=
  if c.cleanTitle = "" then none
  else
    if fuzzWRatio c.cleanTitle qClean < 40 then none
    else
      let base := baseScoreOf query qClean qCons c
      let score :=
        if (tokens.filter fun t => t ≠ "").all (fun t => isSubstrS t c.cleanTitle)
        then min 100 (base + 3) else base
      some ⟨score, c.imdbId, c.title⟩

/-- The candidate truncation of lines 59-61: at most the first 100
candidates are examined. -/
def truncate100 (l : List Candidate) : List Candidate :=
  if 100 < l.length then l.take 100 else l

/-- The unsorted `results` list of the ranker. -/
def scoredResults (cands : List Candidate) (query : String) : List ScoredEntry :=
  (truncate100 cands).filterMap
    (scoreCandidate query (clean_text_for_search query) (consonant_signature query)
      (pySplit (clean_text_for_search query)))

/-- The sort key of line 98 (`key=lambda x: (-x[0], x[2])`) as a strict
comparison: higher score first, ties by code-point-ascending title. -/
def keyLt (a b : ScoredEntry) : Bool :=
  decide (b.score < a.score) || (a.score == b.score && strLtB a.title b.title)

/-- The `results` list after the stable sort of line 98. -/
def sortedResults (cands : List Candidate) (query : String) : List ScoredEntry :=
  sortByLt keyLt (scoredResults cands query)

/-- The sorted results at or above an acceptance threshold `t`; the source
fixes `t = 50` at line 101. -/
def thresholdResults (t : Nat) (cands : List Candidate) (query : String) :
    List ScoredEntry :=
  (sortedResults cands query).filter fun r => t ≤ r.score

/-- `_process_fuzzy_candidates` with the acceptance threshold `50` of line
101 replaced by a parameter, for the threshold-monotonicity property. -/
def process_fuzzy_threshold (t : Nat) (cands : List Candidate) (query : String) :
    List SearchResult :=
  if cands = [] then []
  else ((thresholdResults t cands query).map fun r =>
    ({ imdbId := r.imdbId, title := r.title } : SearchResult)).take 20

/-- `_process_fuzzy_candidates` from `src/database.py` (lines 51-102):
empty input short-circuits to `[]`; otherwise score the (at most 100)
candidates, sort, keep scores `>= 50`, project to result pairs, and return
at most 20 entries. -/
def process_fuzzy_candidates (cands : List Candidate) (query : String) :
    List SearchResult :=
  process_fuzzy_threshold 50 cands query

/-- The fuzzy stage of `super_search_movies_advanced` (lines 409-414): run
`_process_fuzzy_candidates` on the fetched candidates and return at most
`limit` results (`return fuzzy_results[:limit]`, with an empty fuzzy result
falling through to `return []`). -/
def super_search_fuzzy_stage (cands : List Candidate) (query : String)
    (limit : Nat) : List SearchResult :=
  (process_fuzzy_candidates cands query).take limit

/-- Modelled from the spec (section 4.2, steps 2-3): the base score of a
candidate is the maximum of the five similarity measures, all evaluated
unconditionally, with the token-containment bonus applied on top.  This is
the comparison point for claim C1; the source's `scoreCandidate` skips
candidates before computing all five measures. -/
def specScoreCandidate (query qClean qCons : String) (tokens : List String)
    (c : Candidate) : ScoredEntry :=
  let base := max (fuzzWRatio c.cleanTitle qClean)
    (max (fuzzTokenSet c.title query) (max (fuzzTokenSort c.title query)
      (max (fuzzPartial c.cleanTitle qClean)
        (fuzzPartial (consonant_signature c.title) qCons))))
  let score :=
    if (tokens.filter fun t => t ≠ "").all (fun t => isSubstrS t c.cleanTitle)
    then min 100 (base + 3) else base
  ⟨score, c.imdbId, c.title⟩

/-- Modelled from the spec (section 4.2): score every candidate by the
maximum of the five measures, apply the bonus, discard below the
acceptance threshold 50, sort (score descending, title ascending), and
return the first 20 entries as pairs. -/
def specRanker (cands : List Candidate) (query : String) : List SearchResult :=
  let qClean := clean_text_for_search query
  let qCons := consonant_signature query
  let tokens := pySplit qClean
  let scored := cands.map (specScoreCandidate query qClean qCons tokens)
  (((sortByLt keyLt scored).filter fun r => 50 ≤ r.score).map fun r =>
    ({ imdbId := r.imdbId, title := r.title } : SearchResult)).take 20

/-- A persisted movie row (the `Movie` model of `src/database.py`, lines
115-128). -/
structure MovieRecord where
  imdbId : String
  title : String
  cleanTitle : String
  year : String
  fileId : String
  messageId : Int
  channelId : Int
deriving DecidableEq, Repr

/-- Result of `add_movie`: `True` on success or the string `"duplicate"`
when a unique constraint on `imdb_id` or `file_id` rejects the insert. -/
inductive AddMovieResult where
  | ok
  | duplicate
deriving DecidableEq, Repr

/-- `add_movie` from `src/database.py` (lines 425-454) over a list model of
the `movies` table: the committed record carries
`clean_title = clean_text_for_search(title)` computed in the same write;
an insert violating the unique `imdb_id`/`file_id` constraints raises
`IntegrityError`, is rolled back, and leaves the table unchanged. -/
def add_movie (db : List MovieRecord) (imdbId title year fileId : String)
    (messageId channelId : Int) : List MovieRecord × AddMovieResult :=
  if db.any fun r => r.imdbId == imdbId || r.fileId == fileId then
    (db, AddMovieResult.duplicate)
  else
    (db ++ [{ imdbId := imdbId, title := title,
              cleanTitle := clean_text_for_search title, year := year,
              fileId := fileId, messageId := messageId,
              channelId := channelId }], AddMovieResult.ok)

example : process_fuzzy_candidates [] "anything" = [] := by decide
example :
    process_fuzzy_candidates [⟨"x", "Movie Season 1", "movie"⟩] "season 1" = [] := by
  decide
example :
    specRanker [⟨"x", "Movie Season 1", "movie"⟩] "season 1" =
      [⟨"x", "Movie Season 1"⟩] := by decide
example :
    process_fuzzy_candidates [⟨"t1", "Titanic", "titanic"⟩] "titanic" =
      [⟨"t1", "Titanic"⟩] := by decide
example :
    scoreCandidate "titanic" "titanic" "ttnk" ["titanic"] ⟨"t1", "Titanic", "titanic"⟩ =
      some ⟨100, "t1", "Titanic"⟩ := by decide

/-! ### Claim theorems -/

/-- C9: for the empty candidates list and every query, the ranker returns
the empty list and raises no error (the `if not candidates: return []`
guard of lines 56-57). -/
theorem c9_empty_candidates (query : String) :
    process_fuzzy_candidates [] query = [] := rfl

/-- Auxiliary: under the hypothesis `100 < cands.length`, the source's
truncation makes the ranker blind to candidates beyond the first 100. -/
theorem truncate100_take (cands : List Candidate) (h : 100 < cands.length) :
    truncate100 cands = truncate100 (cands.take 100) := by
  unfold truncate100
  rw [if_pos h, if_neg]
  simp [Nat.le_of_lt h]

/-- C10: the ranker examines only the first 100 candidates: for a list
with more than 100 entries, the output equals the output on the list
truncated to its first 100 entries (lines 59-61). -/
theorem c10_first_100_only (cands : List Candidate) (query : String)
    (h : 100 < cands.length) :
    process_fuzzy_candidates cands query =
      process_fuzzy_candidates (cands.take 100) query := by
  have hne : cands ≠ [] := by
    intro he
    rw [he] at h
    simp at h
  have hne2 : cands.take 100 ≠ [] := by
    intro he
    have : (cands.take 100).length = 0 := by rw [he]; rfl
    rw [List.length_take] at this
    omega
  unfold process_fuzzy_candidates process_fuzzy_threshold thresholdResults
    sortedResults scoredResults
  rw [if_neg hne, if_neg hne2, truncate100_take cands h]

/-- Witness for C10 at a concrete 101-candidate list. -/
theorem c10_first_100_only_witness :
    100 < (List.replicate 101 (⟨"i", "t", "c"⟩ : Candidate)).length ∧
      process_fuzzy_candidates (List.replicate 101 ⟨"i", "t", "c"⟩) "q" =
        process_fuzzy_candidates ((List.replicate 101 (⟨"i", "t", "c"⟩ : Candidate)).take 100) "q" :=
  ⟨by decide, c10_first_100_only _ _ (by decide)⟩

/-- C3: `clean_text_for_search` is total on any string and on the null
input admitted by its `if not text` guard: the null and empty inputs map
to the empty string, and every other input is processed by the pure
(total) cleaning pipeline. -/
theorem c3_clean_total :
    clean_text_for_search_opt none = "" ∧
      clean_text_for_search_opt (some "") = "" ∧
      ∀ s : String, clean_text_for_search_opt (some s) = clean_text_for_search s :=
  ⟨rfl, rfl, fun _ => rfl⟩

/-- C8: `add_movie` writes complete records: if every record of the table
satisfies `clean_title = clean_text_for_search(title)`, then after any
`add_movie` call every record still does — in particular the newly
committed record computes its `clean_title` from its `title` by the pure
clean function in the same write. -/
theorem c8_add_movie_complete (db : List MovieRecord)
    (imdbId title year fileId : String) (messageId channelId : Int)
    (h : ∀ r ∈ db, r.cleanTitle = clean_text_for_search r.title) :
    ∀ r ∈ (add_movie db imdbId title year fileId messageId channelId).1,
      r.cleanTitle = clean_text_for_search r.title := by
  intro r hr
  unfold add_movie at hr
  by_cases hd : db.any fun r => r.imdbId == imdbId || r.fileId == fileId
  · rw [if_pos hd] at hr
    exact h r hr
  · rw [if_neg hd] at hr
    rcases List.mem_append.mp hr with hl | hr2
    · exact h r hl
    · rcases List.mem_singleton.mp hr2 with rfl
      rfl

/-- Witness for C8: inserting into the empty table yields a record whose
`clean_title` is the clean of its title. -/
theorem c8_add_movie_complete_witness :
    (∀ r ∈ ([] : List MovieRecord), r.cleanTitle = clean_text_for_search r.title) ∧
      ∀ r ∈ (add_movie [] "tt0120338" "Titanic" "1997" "file1" 10 20).1,
        r.cleanTitle = clean_text_for_search r.title :=
  ⟨by simp, c8_add_movie_complete [] "tt0120338" "Titanic" "1997" "file1" 10 20 (by simp)⟩

/-- Auxiliary: strengthening a filter cannot lengthen its output. -/
theorem length_filter_le_of_imp {α : Type} (p q : α → Bool) (l : List α)
    (h : ∀ a, p a = true → q a = true) :
    (l.filter p).length ≤ (l.filter q).length := by
  induction l with
  | nil => exact Nat.le_refl 0
  | cons a t ih =>
    by_cases hp : p a = true
    · rw [List.filter_cons_of_pos hp, List.filter_cons_of_pos (h a hp)]
      exact Nat.succ_le_succ ih
    · rw [List.filter_cons_of_neg (by simpa using hp)]
      by_cases hq : q a = true
      · rw [List.filter_cons_of_pos hq]
        exact Nat.le_succ_of_le ih
      · rw [List.filter_cons_of_neg (by simpa using hq)]
        exact ih

/-- C7: the ranker's acceptance threshold is the constant 50 of line 101,
and for the threshold-parametric ranker a higher acceptance threshold
never yields more results. -/
theorem c7_threshold_monotone :
    (∀ (cands : List Candidate) (query : String),
        process_fuzzy_candidates cands query = process_fuzzy_threshold 50 cands query) ∧
      ∀ (t1 t2 : Nat) (cands : List Candidate) (query : String), t1 ≤ t2 →
        (process_fuzzy_threshold t2 cands query).length ≤
          (process_fuzzy_threshold t1 cands query).length := by
  refine ⟨fun _ _ => rfl, fun t1 t2 cands query h12 => ?_⟩
  unfold process_fuzzy_threshold
  by_cases hc : cands = []
  · rw [if_pos hc, if_pos hc]
  · rw [if_neg hc, if_neg hc]
    rw [List.length_take, List.length_take, List.length_map, List.length_map]
    have hf : (thresholdResults t2 cands query).length ≤
        (thresholdResults t1 cands query).length := by
      unfold thresholdResults
      refine length_filter_le_of_imp _ _ _ fun r hr => ?_
      simp only [decide_eq_true_eq] at hr ⊢
      omega
    omega

/-- Witness for C7: raising the threshold from 50 to 60 on a concrete
candidate list does not increase the result count. -/
theorem c7_threshold_monotone_witness :
    (50 : Nat) ≤ 60 ∧
      (process_fuzzy_threshold 60 [⟨"t1", "Titanic", "titanic"⟩] "titanic").length ≤
        (process_fuzzy_threshold 50 [⟨"t1", "Titanic", "titanic"⟩] "titanic").length :=
  ⟨by decide, c7_threshold_monotone.2 50 60 [⟨"t1", "Titanic", "titanic"⟩] "titanic" (by decide)⟩

/-- C6 (amended): the fuzzy search stage returns the first
`min limit 20` entries of the sorted, threshold-filtered list as
`{imdb_id, title}` pairs — the ranker itself caps its output at 20 before
the caller's `[:limit]` slice — so the result has exactly
`min limit (min 20 accepted)` entries, where `accepted` is the number of
candidates at or above the threshold. -/
theorem c6_limit_amended (cands : List Candidate) (query : String) (limit : Nat) :
    super_search_fuzzy_stage cands query limit =
      ((thresholdResults 50 cands query).map fun r =>
        ({ imdbId := r.imdbId, title := r.title } : SearchResult)).take (min limit 20) ∧
      (super_search_fuzzy_stage cands query limit).length =
        min limit (min 20 (thresholdResults 50 cands query).length) := by
  have heq : super_search_fuzzy_stage cands query limit =
      ((thresholdResults 50 cands query).map fun r =>
        ({ imdbId := r.imdbId, title := r.title } : SearchResult)).take (min limit 20) := by
    unfold super_search_fuzzy_stage process_fuzzy_candidates process_fuzzy_threshold
    by_cases hc : cands = []
    · subst hc
      have : thresholdResults 50 [] query = [] := rfl
      simp [this]
    · rw [if_neg hc, List.take_take]
  refine ⟨heq, ?_⟩
  rw [heq, List.length_take, List.length_map]
  omega

/-- C6 (counterexample to the claim as stated): with 21 accepted
candidates and `limit = 21`, the search result has 20 entries, not
`min (limit, accepted) = 21`, and is not the first 21 entries of the
sorted, threshold-filtered list. -/
theorem c6_limit_counterexample :
    (super_search_fuzzy_stage (List.replicate 21 ⟨"i", "a", "a"⟩) "a" 21).length = 20 ∧
      min 21 (thresholdResults 50 (List.replicate 21 ⟨"i", "a", "a"⟩) "a").length = 21 ∧
      super_search_fuzzy_stage (List.replicate 21 ⟨"i", "a", "a"⟩) "a" 21 ≠
        ((thresholdResults 50 (List.replicate 21 ⟨"i", "a", "a"⟩) "a").map fun r =>
          ({ imdbId := r.imdbId, title := r.title } : SearchResult)).take 21 := by
  refine ⟨by decide, by decide, by decide⟩

/-! ### Sortedness of the ranker output (claim C5) -/

/-- Code-point lexicographic order on strings, as Python compares the
titles in the sort key of line 98: `a ≤ b` iff `b` is not strictly below
`a`. -/
def strLe (a b : String) : Prop := charListLt b.data a.data = false

/-- Nothing is lexicographically below the empty list. -/
theorem charListLt_nil_right : ∀ a, charListLt a [] = false := by
  intro a
  cases a <;> rfl

/-- Asymmetry of the lexicographic order. -/
theorem charListLt_asymm : ∀ a b : List Char,
    charListLt a b = true → charListLt b a = false := by
  intro a
  induction a with
  | nil =>
    intro b _
    exact charListLt_nil_right b
  | cons a0 as ih =>
    intro b h
    cases b with
    | nil => rw [charListLt_nil_right] at h; exact absurd h (by simp)
    | cons b0 bs =>
      simp only [charListLt] at h ⊢
      by_cases h1 : a0.toNat < b0.toNat
      · rw [if_neg (by omega), if_pos h1]
      · by_cases h2 : b0.toNat < a0.toNat
        · rw [if_neg h1, if_pos h2] at h
          exact absurd h (by simp)
        · rw [if_neg h1, if_neg h2] at h
          rw [if_neg h2, if_neg h1]
          exact ih bs h

/-- Transitivity of the complement (`charListLt a b = false` reads
`b ≤ a`). -/
theorem charListLt_ge_trans : ∀ a b c : List Char,
    charListLt a b = false → charListLt b c = false → charListLt a c = false := by
  intro a
  induction a with
  | nil =>
    intro b c h1 h2
    cases c with
    | nil => rfl
    | cons c0 cs =>
      cases b with
      | nil => exact absurd h2 (by simp [charListLt])
      | cons b0 bs => exact absurd h1 (by simp [charListLt])
  | cons a0 as ih =>
    intro b c h1 h2
    cases c with
    | nil => exact charListLt_nil_right _
    | cons c0 cs =>
      cases b with
      | nil => exact absurd h2 (by simp [charListLt])
      | cons b0 bs =>
        simp only [charListLt] at h1 h2 ⊢
        by_cases hab1 : a0.toNat < b0.toNat
        · rw [if_pos hab1] at h1
          exact absurd h1 (by simp)
        · by_cases hbc1 : b0.toNat < c0.toNat
          · rw [if_pos hbc1] at h2
            exact absurd h2 (by simp)
          · rw [if_neg (show ¬ a0.toNat < c0.toNat by omega)]
            by_cases hac2 : c0.toNat < a0.toNat
            · rw [if_pos hac2]
            · rw [if_neg hac2]
              rw [if_neg hab1, if_neg (show ¬ b0.toNat < a0.toNat by omega)] at h1
              rw [if_neg hbc1, if_neg (show ¬ c0.toNat < b0.toNat by omega)] at h2
              exact ih bs cs h1 h2

/-- Characterization of the sort key's complement: `keyLt a b = false`
says `a` need not come strictly before `b`. -/
theorem keyLt_eq_false_iff (a b : ScoredEntry) :
    keyLt a b = false ↔
      (¬ b.score < a.score ∧ (a.score = b.score → charListLt a.title.data b.title.data = false)) := by
  unfold keyLt strLtB
  constructor
  · intro h
    rcases Bool.or_eq_false_iff.mp h with ⟨h1, h2⟩
    rcases Bool.and_eq_false_iff.mp h2 with h3 | h3
    · refine ⟨by simpa using h1, fun he => absurd ?_ (by simpa using h3)⟩
      exact he
    · exact ⟨by simpa using h1, fun _ => h3⟩
  · intro ⟨h1, h2⟩
    refine Bool.or_eq_false_iff.mpr ⟨by simpa using h1, ?_⟩
    by_cases he : a.score = b.score
    · exact Bool.and_eq_false_iff.mpr (Or.inr (h2 he))
    · exact Bool.and_eq_false_iff.mpr (Or.inl (by simpa using he))

/-- Asymmetry of the sort key. -/
theorem keyLt_asymm (a b : ScoredEntry) (h : keyLt a b = true) :
    keyLt b a = false := by
  unfold keyLt strLtB at h
  rcases Bool.or_eq_true_iff.mp h with h1 | h1
  · have hlt : b.score < a.score := by simpa using h1
    rw [keyLt_eq_false_iff]
    exact ⟨by omega, fun he => absurd he (by omega)⟩
  · rcases Bool.and_eq_true_iff.mp h1 with ⟨h2, h3⟩
    rw [keyLt_eq_false_iff]
    have hsc : a.score = b.score := by simpa using h2
    exact ⟨by omega, fun _ => charListLt_asymm _ _ h3⟩

/-- Transitivity of the sort key's complement. -/
theorem keyLt_neg_trans (a b c : ScoredEntry)
    (h1 : keyLt a b = false) (h2 : keyLt b c = false) : keyLt a c = false := by
  rw [keyLt_eq_false_iff] at h1 h2 ⊢
  rcases h1 with ⟨h1s, h1t⟩
  rcases h2 with ⟨h2s, h2t⟩
  refine ⟨by omega, fun he => ?_⟩
  have hab : a.score = b.score := by omega
  have hbc : b.score = c.score := by omega
  exact charListLt_ge_trans _ _ _ (h1t hab) (h2t hbc)

/-- Membership in a stable insertion. -/
theorem mem_insertStable {α : Type} (lt : α → α → Bool) (x : α) :
    ∀ (l : List α) (y : α), y ∈ insertStable lt x l ↔ y = x ∨ y ∈ l := by
  intro l
  induction l with
  | nil => intro y; simp [insertStable]
  | cons h t ih =>
    intro y
    unfold insertStable
    by_cases hl : lt h x = true
    · rw [if_pos hl]
      constructor
      · intro hy
        rcases List.mem_cons.mp hy with rfl | hy2
        · exact Or.inr (List.mem_cons_self _ _)
        · rcases (ih y).mp hy2 with rfl | hy3
          · exact Or.inl rfl
          · exact Or.inr (List.mem_cons_of_mem _ hy3)
      · intro hy
        rcases hy with rfl | hy2
        · exact List.mem_cons_of_mem _ ((ih y).mpr (Or.inl rfl))
        · rcases List.mem_cons.mp hy2 with rfl | hy3
          · exact List.mem_cons_self _ _
          · exact List.mem_cons_of_mem _ ((ih y).mpr (Or.inr hy3))
    · rw [if_neg hl]
      constructor
      · intro hy
        rcases List.mem_cons.mp hy with rfl | hy2
        · exact Or.inl rfl
        · exact Or.inr hy2
      · intro hy
        rcases hy with rfl | hy2
        · exact List.mem_cons_self _ _
        · exact List.mem_cons_of_mem _ hy2

/-- Stable insertion preserves the sortedness invariant of the ranker's
key order. -/
theorem pairwise_insertStable (x : ScoredEntry) :
    ∀ l : List ScoredEntry, l.Pairwise (fun a b => keyLt b a = false) →
      (insertStable keyLt x l).Pairwise (fun a b => keyLt b a = false) := by
  intro l
  induction l with
  | nil => intro _; simp [insertStable]
  | cons h t ih =>
    intro hp
    rcases List.pairwise_cons.mp hp with ⟨hh, ht⟩
    unfold insertStable
    by_cases hl : keyLt h x = true
    · rw [if_pos hl]
      refine List.pairwise_cons.mpr ⟨?_, ih ht⟩
      intro y hy
      rcases (mem_insertStable keyLt x t y).mp hy with rfl | hy2
      · exact keyLt_asymm h y hl
      · exact hh y hy2
    · rw [if_neg hl]
      have hlf : keyLt h x = false := by simpa using hl
      refine List.pairwise_cons.mpr ⟨?_, hp⟩
      intro y hy
      rcases List.mem_cons.mp hy with rfl | hy2
      · exact hlf
      · exact keyLt_neg_trans y h x (hh y hy2) hlf

/-- The ranker's sort produces a list that is pairwise ordered by the sort
key. -/
theorem pairwise_sortByLt (l : List ScoredEntry) :
    (sortByLt keyLt l).Pairwise (fun a b => keyLt b a = false) := by
  induction l with
  | nil => simp [sortByLt]
  | cons h t ih => exact pairwise_insertStable h (sortByLt keyLt t) ih

/-- The key-order complement implies the claim's reading of the order:
score descending, ties by title ascending. -/
theorem keyLt_false_imp_claim (a b : ScoredEntry) (h : keyLt b a = false) :
    b.score < a.score ∨ (a.score = b.score ∧ strLe a.title b.title) := by
  rw [keyLt_eq_false_iff] at h
  rcases h with ⟨h1, h2⟩
  by_cases he : a.score = b.score
  · exact Or.inr ⟨he, h2 he.symm⟩
  · exact Or.inl (by omega)

/-- C5: the ranker's output is the projection of the first 20 entries of
the sorted, threshold-filtered scored list, and that list is sorted by
score descending with ties broken by title ascending (code-point order),
so the output order is deterministic for equal scores. -/
theorem c5_sorted_deterministic (cands : List Candidate) (query : String) :
    process_fuzzy_candidates cands query =
      ((thresholdResults 50 cands query).take 20).map
        (fun r => ({ imdbId := r.imdbId, title := r.title } : SearchResult)) ∧
      ((thresholdResults 50 cands query).take 20).Pairwise
        (fun a b => b.score < a.score ∨ (a.score = b.score ∧ strLe a.title b.title)) := by
  constructor
  · unfold process_fuzzy_candidates process_fuzzy_threshold
    by_cases hc : cands = []
    · subst hc
      have : thresholdResults 50 [] query = [] := rfl
      simp [this]
    · rw [if_neg hc, ← List.map_take]
  · have hs : (sortedResults cands query).Pairwise (fun a b => keyLt b a = false) :=
      pairwise_sortByLt (scoredResults cands query)
    have hf : (thresholdResults 50 cands query).Pairwise (fun a b => keyLt b a = false) :=
      hs.sublist (List.filter_sublist _)
    have htk : ((thresholdResults 50 cands query).take 20).Pairwise
        (fun a b => keyLt b a = false) :=
      hf.sublist (List.take_sublist _ _)
    exact htk.imp (fun h => keyLt_false_imp_claim _ _ h)

/-! ### Score bounds (claim C4) -/

/-- A longest common subsequence is no longer than either list. -/
theorem lcsF_le : ∀ (f : Nat) (a b : List Char),
    lcsF f a b ≤ min a.length b.length := by
  intro f
  induction f with
  | zero => intro a b; simp [lcsF]
  | succ f ih =>
    intro a b
    cases a with
    | nil => simp [lcsF]
    | cons a0 as =>
      cases b with
      | nil => simp [lcsF]
      | cons b0 bs =>
        simp only [lcsF]
        by_cases he : a0 = b0
        · rw [if_pos he]
          have := ih as bs
          simp only [List.length_cons]
          omega
        · rw [if_neg he]
          have h1 := ih (a0 :: as) bs
          have h2 := ih as (b0 :: bs)
          simp only [List.length_cons] at h1 h2 ⊢
          omega

/-- Bound for `lcs`. -/
theorem lcs_le (a b : List Char) : lcs a b ≤ min a.length b.length :=
  lcsF_le _ a b

/-- Invariant of all score fractions: positive denominator and value at
most 100. -/
def FBound (a : Frac) : Prop := 0 < a.den ∧ a.num ≤ 100 * a.den

/-- Rounding a bounded score yields at most 100. -/
theorem roundF_le_100 (a : Frac) (h : FBound a) : roundF a ≤ 100 := by
  obtain ⟨hd, hn⟩ := h
  have hq : a.num / a.den ≤ 100 := by
    calc a.num / a.den ≤ 100 * a.den / a.den := Nat.div_le_div_right hn
    _ = 100 := Nat.mul_div_cancel 100 hd
  have hdm : a.den * (a.num / a.den) + a.num % a.den = a.num := Nat.div_add_mod _ _
  have hr : a.num % a.den < a.den := Nat.mod_lt _ hd
  simp only [roundF]
  split_ifs with h1 h2 h3
  · rcases Nat.lt_or_ge (a.num / a.den) 100 with hlt | hge
    · omega
    · have heq : a.num / a.den = 100 := by omega
      rw [heq] at hdm
      omega
  · exact hq
  · exact hq
  · rcases Nat.lt_or_ge (a.num / a.den) 100 with hlt | hge
    · omega
    · have heq : a.num / a.den = 100 := by omega
      rw [heq] at hdm
      omega

/-- The constant 100 score is bounded. -/
theorem fbound_hundred : FBound ⟨100, 1⟩ :=
  ⟨Nat.one_pos, by show (100 : Nat) ≤ 100 * 1; omega⟩

/-- The constant 0 score is bounded. -/
theorem fbound_zero : FBound ⟨0, 1⟩ :=
  ⟨Nat.one_pos, by show (0 : Nat) ≤ 100 * 1; omega⟩

/-- Scores of the shape `100 * (x - y) / x` are bounded. -/
theorem fbound_sub (x y : Nat) (hx : 0 < x) : FBound ⟨100 * (x - y), x⟩ :=
  ⟨hx, by show 100 * (x - y) ≤ 100 * x; omega⟩

/-- `fmax` preserves the bound. -/
theorem fbound_fmax {a b : Frac} (ha : FBound a) (hb : FBound b) :
    FBound (fmax a b) := by
  unfold fmax
  split_ifs <;> assumption

/-- Folding `fmax` preserves the bound. -/
theorem fbound_foldl_fmax : ∀ (l : List Frac) (init : Frac), FBound init →
    (∀ x ∈ l, FBound x) → FBound (l.foldl fmax init) := by
  intro l
  induction l with
  | nil => intro init hi _; exact hi
  | cons h t ih =>
    intro init hi hl
    exact ih (fmax init h) (fbound_fmax hi (hl h (List.mem_cons_self _ _)))
      fun x hx => hl x (List.mem_cons_of_mem _ hx)

/-- `maxFList` preserves the bound. -/
theorem fbound_maxFList (l : List Frac) (h : ∀ x ∈ l, FBound x) :
    FBound (maxFList l) :=
  fbound_foldl_fmax l ⟨0, 1⟩ fbound_zero h

/-- `ratio` is bounded. -/
theorem fbound_ratioF (a b : List Char) : FBound (ratioF a b) := by
  unfold ratioF
  split_ifs with h
  · exact fbound_hundred
  · have hl := lcs_le a b
    refine ⟨?_, ?_⟩
    · show 0 < a.length + b.length
      omega
    · show 200 * lcs a b ≤ 100 * (a.length + b.length)
      omega

/-- The `95/100` scale preserves the bound. -/
theorem fbound_fscale95 {a : Frac} (ha : FBound a) : FBound (fscale95 a) := by
  obtain ⟨hd, hn⟩ := ha
  refine ⟨?_, ?_⟩
  · show 0 < 100 * a.den
    omega
  · show 95 * a.num ≤ 100 * (100 * a.den)
    omega

/-- The `9/10` scale preserves the bound. -/
theorem fbound_fscale910 {a : Frac} (ha : FBound a) : FBound (fscale910 a) := by
  obtain ⟨hd, hn⟩ := ha
  refine ⟨?_, ?_⟩
  · show 0 < 10 * a.den
    omega
  · show 9 * a.num ≤ 100 * (10 * a.den)
    omega

/-- The `3/5` scale preserves the bound. -/
theorem fbound_fscale35 {a : Frac} (ha : FBound a) : FBound (fscale35 a) := by
  obtain ⟨hd, hn⟩ := ha
  refine ⟨?_, ?_⟩
  · show 0 < 5 * a.den
    omega
  · show 3 * a.num ≤ 100 * (5 * a.den)
    omega

/-- One direction of `partial_ratio` is bounded. -/
theorem fbound_pRatioImplF (sh lo : List Char) : FBound (pRatioImplF sh lo) := by
  unfold pRatioImplF
  split_ifs with h
  · exact fbound_zero
  · refine fbound_maxFList _ fun x hx => ?_
    obtain ⟨w, _, rfl⟩ := List.mem_map.mp hx
    exact fbound_ratioF sh w

/-- `partial_ratio` is bounded. -/
theorem fbound_pRatioF (a b : List Char) : FBound (pRatioF a b) := by
  simp only [pRatioF]
  split_ifs with h1 h2 h3
  · exact fbound_fmax (fbound_pRatioImplF _ _) (fbound_pRatioImplF _ _)
  · exact fbound_pRatioImplF _ _
  · exact fbound_fmax (fbound_pRatioImplF _ _) (fbound_pRatioImplF _ _)
  · exact fbound_pRatioImplF _ _

/-- `token_sort_ratio` is bounded. -/
theorem fbound_tokenSortF (a b : List Char) : FBound (tokenSortF a b) :=
  fbound_ratioF _ _

/-- `token_set_ratio` is bounded. -/
theorem fbound_tokenSetF (a b : List Char) : FBound (tokenSetF a b) := by
  simp only [tokenSetF]
  split_ifs with h1 h2 h3 h4
  · exact fbound_hundred
  · exact fbound_hundred
  · exact fbound_sub _ _ (by omega)
  · exact fbound_fmax fbound_hundred
      (fbound_fmax (fbound_sub _ _ (by omega)) (fbound_sub _ _ (by omega)))
  · exact fbound_fmax (fbound_sub _ _ (by omega))
      (fbound_fmax (fbound_sub _ _ (by omega)) (fbound_sub _ _ (by omega)))

/-- `token_ratio` is bounded. -/
theorem fbound_tokenRatioF (a b : List Char) : FBound (tokenRatioF a b) :=
  fbound_fmax (fbound_tokenSortF a b) (fbound_tokenSetF a b)

/-- `partial_token_ratio` is bounded. -/
theorem fbound_partialTokenRatioF (a b : List Char) :
    FBound (partialTokenRatioF a b) := by
  simp only [partialTokenRatioF]
  split_ifs with h
  · exact fbound_hundred
  · exact fbound_fmax (fbound_pRatioF _ _) (fbound_pRatioF _ _)

/-- `WRatio` is bounded. -/
theorem fbound_wRatioF (a b : List Char) : FBound (wRatioF a b) := by
  simp only [wRatioF]
  split_ifs with h1 h2 h3
  · exact fbound_zero
  · exact fbound_fmax (fbound_ratioF a b) (fbound_fscale95 (fbound_tokenRatioF a b))
  · exact fbound_fmax (fbound_ratioF a b) (fbound_fmax
      (fbound_fscale910 (fbound_pRatioF a b))
      (fbound_fscale95 (fbound_fscale910 (fbound_partialTokenRatioF a b))))
  · exact fbound_fmax (fbound_ratioF a b) (fbound_fmax
      (fbound_fscale35 (fbound_pRatioF a b))
      (fbound_fscale95 (fbound_fscale35 (fbound_partialTokenRatioF a b))))

/-- `fuzz.WRatio` never exceeds 100. -/
theorem fuzzWRatio_le_100 (s1 s2 : String) : fuzzWRatio s1 s2 ≤ 100 :=
  roundF_le_100 _ (fbound_wRatioF _ _)

/-- `fuzz.token_set_ratio` never exceeds 100. -/
theorem fuzzTokenSet_le_100 (s1 s2 : String) : fuzzTokenSet s1 s2 ≤ 100 :=
  roundF_le_100 _ (fbound_tokenSetF _ _)

/-- `fuzz.token_sort_ratio` never exceeds 100. -/
theorem fuzzTokenSort_le_100 (s1 s2 : String) : fuzzTokenSort s1 s2 ≤ 100 :=
  roundF_le_100 _ (fbound_tokenSortF _ _)

/-- `fuzz.partial_ratio` never exceeds 100. -/
theorem fuzzPartial_le_100 (s1 s2 : String) : fuzzPartial s1 s2 ≤ 100 :=
  roundF_le_100 _ (fbound_pRatioF _ _)

/-- The base score (maximum of the five measures) never exceeds 100. -/
theorem baseScoreOf_le_100 (query qClean qCons : String) (c : Candidate) :
    baseScoreOf query qClean qCons c ≤ 100 := by
  unfold baseScoreOf
  have h1 := fuzzWRatio_le_100 c.cleanTitle qClean
  have h2 := fuzzTokenSet_le_100 c.title query
  have h3 := fuzzTokenSort_le_100 c.title query
  have h4 := fuzzPartial_le_100 c.cleanTitle qClean
  have h5 := fuzzPartial_le_100 (consonant_signature c.title) qCons
  omega

/-- C4: for a scored candidate (one the loop does not skip), if the
cleaned query has at least one token and every token appears as a
substring of the candidate's normalized title, the final score is the
base score plus 3 capped at 100, and in particular is at least the score
without the bonus. -/
theorem c4_bonus_correct (c : Candidate) (query : String) (s : ScoredEntry)
    (hs : scoreCandidate query (clean_text_for_search query) (consonant_signature query)
        (pySplit (clean_text_for_search query)) c = some s)
    (_htok : pySplit (clean_text_for_search query) ≠ [])
    (hsub : ∀ t ∈ pySplit (clean_text_for_search query), isSubstrS t c.cleanTitle = true) :
    s.score = min 100
        (baseScoreOf query (clean_text_for_search query) (consonant_signature query) c + 3) ∧
      baseScoreOf query (clean_text_for_search query) (consonant_signature query) c ≤ s.score := by
  have hall : ((pySplit (clean_text_for_search query)).filter fun t => t ≠ "").all
      (fun t => isSubstrS t c.cleanTitle) = true := by
    rw [List.all_eq_true]
    intro t ht
    exact hsub t (List.mem_of_mem_filter ht)
  simp only [scoreCandidate] at hs
  split_ifs at hs with h1 h2
  have hx := Option.some.inj hs
  subst hx
  have hmono : ∀ b : Nat, b ≤ 100 → b ≤ min 100 (b + 3) := by
    intro b hb
    omega
  exact ⟨rfl, hmono _ (baseScoreOf_le_100 query (clean_text_for_search query)
    (consonant_signature query) c)⟩

/-- Witness for C4 at a concrete candidate and query where the bonus
condition holds. -/
theorem c4_bonus_correct_witness :
    scoreCandidate "titanic" (clean_text_for_search "titanic")
        (consonant_signature "titanic") (pySplit (clean_text_for_search "titanic"))
        ⟨"t1", "Titanic", "titanic"⟩ = some ⟨100, "t1", "Titanic"⟩ ∧
      pySplit (clean_text_for_search "titanic") ≠ [] ∧
      (∀ t ∈ pySplit (clean_text_for_search "titanic"),
        isSubstrS t (⟨"t1", "Titanic", "titanic"⟩ : Candidate).cleanTitle = true) ∧
      ((⟨100, "t1", "Titanic"⟩ : ScoredEntry).score = min 100
          (baseScoreOf "titanic" (clean_text_for_search "titanic")
            (consonant_signature "titanic") ⟨"t1", "Titanic", "titanic"⟩ + 3) ∧
        baseScoreOf "titanic" (clean_text_for_search "titanic")
            (consonant_signature "titanic") ⟨"t1", "Titanic", "titanic"⟩ ≤
          (⟨100, "t1", "Titanic"⟩ : ScoredEntry).score) :=
  ⟨by decide, by decide, by decide,
    c4_bonus_correct ⟨"t1", "Titanic", "titanic"⟩ "titanic" ⟨100, "t1", "Titanic"⟩
      (by decide) (by decide) (by decide)⟩

/-- C1 (amended): for a candidate with a non-empty normalized title whose
`WRatio` against the cleaned query is at least 40, the ranker's score is
exactly the spec's: the maximum of the five similarity measures plus the
containment bonus.  Candidates failing either pre-filter are dropped
before the other four measures are considered. -/
theorem c1_base_score_amended (c : Candidate) (query : String)
    (h1 : ¬ c.cleanTitle = "")
    (h2 : ¬ fuzzWRatio c.cleanTitle (clean_text_for_search query) < 40) :
    scoreCandidate query (clean_text_for_search query) (consonant_signature query)
        (pySplit (clean_text_for_search query)) c =
      some (specScoreCandidate query (clean_text_for_search query)
        (consonant_signature query) (pySplit (clean_text_for_search query)) c) := by
  simp only [scoreCandidate, specScoreCandidate, baseScoreOf]
  rw [if_neg h1, if_neg h2]

/-- Witness for the amended C1 at a concrete candidate passing both
pre-filters. -/
theorem c1_base_score_amended_witness :
    ¬ (⟨"t1", "Titanic", "titanic"⟩ : Candidate).cleanTitle = "" ∧
      ¬ fuzzWRatio (⟨"t1", "Titanic", "titanic"⟩ : Candidate).cleanTitle
          (clean_text_for_search "titanic") < 40 ∧
      scoreCandidate "titanic" (clean_text_for_search "titanic")
          (consonant_signature "titanic") (pySplit (clean_text_for_search "titanic"))
          ⟨"t1", "Titanic", "titanic"⟩ =
        some (specScoreCandidate "titanic" (clean_text_for_search "titanic")
          (consonant_signature "titanic") (pySplit (clean_text_for_search "titanic"))
          ⟨"t1", "Titanic", "titanic"⟩) :=
  ⟨by decide, by decide,
    c1_base_score_amended ⟨"t1", "Titanic", "titanic"⟩ "titanic" (by decide) (by decide)⟩

/-- C1 (counterexample to the claim as stated): the candidate
`("x", "Movie Season 1", "movie")` under the query `"season 1"` is
excluded by the `WRatio < 40` pre-filter of line 81 before the other four
measures are evaluated, although its token-set similarity alone is 100 —
the ranker that evaluates all five measures for every candidate (the
spec's reading) returns it, while the source returns nothing. -/
theorem c1_counterexample :
    process_fuzzy_candidates [⟨"x", "Movie Season 1", "movie"⟩] "season 1" = [] ∧
      specRanker [⟨"x", "Movie Season 1", "movie"⟩] "season 1" =
        [⟨"x", "Movie Season 1"⟩] ∧
      fuzzTokenSet "Movie Season 1" "season 1" = 100 :=
  ⟨by decide, by decide, by decide⟩

/-! ### Idempotence analysis of `clean_text_for_search` (claim C2) -/

/-- The shape invariant produced by the run-collapsing passes: no two
adjacent spaces. -/
def NoTwoSpaces (l : List Char) : Prop :=
  List.Chain' (fun a b => ¬(a = ' ' ∧ b = ' ')) l

/-- Characters of a collapsed list: either a replacement space or an
original character outside the collapsed class. -/
theorem mem_collapseRunsAux (p : Char → Bool) :
    ∀ (l : List Char) (b : Bool) (c : Char), c ∈ collapseRunsAux p l b →
      c = ' ' ∨ (c ∈ l ∧ p c = false) := by
  intro l
  induction l with
  | nil => intro b c hc; simp [collapseRunsAux] at hc
  | cons a t ih =>
    intro b c hc
    simp only [collapseRunsAux] at hc
    by_cases hp : p a = true
    · rw [if_pos hp] at hc
      by_cases hb : b = true
      · rw [if_pos hb] at hc
        rcases ih true c hc with h' | ⟨hm, hq⟩
        · exact Or.inl h'
        · exact Or.inr ⟨List.mem_cons_of_mem _ hm, hq⟩
      · rw [if_neg hb] at hc
        rcases List.mem_cons.mp hc with rfl | hc2
        · exact Or.inl rfl
        · rcases ih true c hc2 with h' | ⟨hm, hq⟩
          · exact Or.inl h'
          · exact Or.inr ⟨List.mem_cons_of_mem _ hm, hq⟩
    · rw [if_neg hp] at hc
      rcases List.mem_cons.mp hc with rfl | hc2
      · exact Or.inr ⟨List.mem_cons_self _ _, by simpa using hp⟩
      · rcases ih false c hc2 with h' | ⟨hm, hq⟩
        · exact Or.inl h'
        · exact Or.inr ⟨List.mem_cons_of_mem _ hm, hq⟩

/-- The remainder returned by `afterDigits` is part of its input. -/
theorem mem_afterDigits : ∀ l rem : List Char, afterDigits l = some rem → rem ⊆ l := by
  intro l rem h
  have hd : l.dropWhile pyIsSpace ⊆ l := (List.dropWhile_sublist pyIsSpace).subset
  unfold afterDigits at h
  cases hdw : l.dropWhile pyIsSpace with
  | nil => rw [hdw] at h; simp at h
  | cons d1 t1 =>
    rw [hdw] at h hd
    simp only at h
    split_ifs at h with h1
    · cases t1 with
      | nil =>
        simp only [Option.some.injEq] at h
        subst h
        intro z hz
        cases hz
      | cons d2 t2 =>
        simp only at h
        split_ifs at h with h2 h4
        · cases t2 with
          | nil =>
            simp only [Option.some.injEq] at h
            subst h
            intro z hz
            cases hz
          | cons c3 t3 =>
            simp only at h
            split_ifs at h with h3
            · simp only [Option.some.injEq] at h
              subst h
              intro z hz
              exact hd (List.mem_cons_of_mem _ (List.mem_cons_of_mem _ hz))
        · simp only [Option.some.injEq] at h
          subst h
          intro z hz
          exact hd (List.mem_cons_of_mem _ hz)

/-- The remainder returned by `trySeason` is part of its input. -/
theorem mem_trySeason : ∀ l rem : List Char, trySeason l = some rem → rem ⊆ l := by
  intro l rem h
  cases l with
  | nil => simp [trySeason] at h
  | cons c rest =>
    simp only [trySeason] at h
    by_cases hc : c = 's'
    · rw [if_pos hc] at h
      cases had : afterDigits rest with
      | some r2 =>
        rw [had] at h
        simp only [Option.some.injEq] at h
        subst h
        exact fun z hz => List.mem_cons_of_mem _ (mem_afterDigits rest r2 had hz)
      | none =>
        rw [had] at h
        simp only at h
        by_cases h5 : rest.take 5 = ['e', 'a', 's', 'o', 'n']
        · rw [if_pos h5] at h
          exact fun z hz => List.mem_cons_of_mem _
            (List.drop_subset 5 rest (mem_afterDigits _ rem h hz))
        · rw [if_neg h5] at h
          exact absurd h (by simp)
    · rw [if_neg hc] at h
      exact absurd h (by simp)

/-- The season-marker scan only deletes characters. -/
theorem mem_seasonStripAux : ∀ (fuel : Nat) (b : Bool) (l : List Char),
    seasonStripAux fuel b l ⊆ l := by
  intro fuel
  induction fuel with
  | zero => intro b l; simp [seasonStripAux]
  | succ f ih =>
    intro b l
    cases l with
    | nil => intro z hz; simp [seasonStripAux] at hz
    | cons c rest =>
      simp only [seasonStripAux]
      split_ifs with h1
      · cases hts : trySeason (c :: rest) with
        | some rem =>
          intro z hz
          exact mem_trySeason _ _ hts (ih true rem hz)
        | none =>
          intro z hz
          rcases List.mem_cons.mp hz with rfl | hz2
          · exact List.mem_cons_self _ _
          · exact List.mem_cons_of_mem _ (ih (wordCh c) rest hz2)
      · intro z hz
        rcases List.mem_cons.mp hz with rfl | hz2
        · exact List.mem_cons_self _ _
        · exact List.mem_cons_of_mem _ (ih (wordCh c) rest hz2)

/-- `seasonStrip` only deletes characters. -/
theorem seasonStrip_subset (l : List Char) : seasonStrip l ⊆ l :=
  mem_seasonStripAux l.length false l

/-- Stripping only deletes characters. -/
theorem mem_stripL (l : List Char) (c : Char) (h : c ∈ stripL l) : c ∈ l := by
  unfold stripL at h
  rw [List.mem_reverse] at h
  have h2 := (List.dropWhile_sublist pyIsSpace).subset h
  rw [List.mem_reverse] at h2
  exact (List.dropWhile_sublist pyIsSpace).subset h2

/-- The head surviving `dropWhile` fails the predicate. -/
theorem head?_dropWhile_not (p : Char → Bool) :
    ∀ (l : List Char) (c : Char), (l.dropWhile p).head? = some c → p c = false := by
  intro l
  induction l with
  | nil => intro c hc; simp at hc
  | cons a t ih =>
    intro c hc
    rw [List.dropWhile_cons] at hc
    split_ifs at hc with hp
    · exact ih c hc
    · simp only [List.head?_cons, Option.some.injEq] at hc
      subst hc
      simpa using hp

/-- `dropWhile` is the identity when the head fails the predicate. -/
theorem dropWhile_eq_self (p : Char → Bool) (l : List Char)
    (h : ∀ c, l.head? = some c → p c = false) : l.dropWhile p = l := by
  cases l with
  | nil => rfl
  | cons a t =>
    rw [List.dropWhile_cons, if_neg]
    simp [h a rfl]

/-- A non-empty suffix shares its last element with the full list. -/
theorem getLast?_of_suffix {l m : List Char} (h : l <:+ m) (hl : l ≠ []) :
    l.getLast? = m.getLast? := by
  obtain ⟨d, rfl⟩ := h
  exact (List.getLast?_append_of_ne_nil d hl).symm

/-- The first character of a stripped list is not whitespace. -/
theorem head?_stripL (l : List Char) (c : Char) (h : (stripL l).head? = some c) :
    pyIsSpace c = false := by
  unfold stripL at h
  rw [List.head?_reverse] at h
  have hne : ((l.dropWhile pyIsSpace).reverse.dropWhile pyIsSpace) ≠ [] := by
    intro he
    rw [he] at h
    simp at h
  rw [getLast?_of_suffix (List.dropWhile_suffix pyIsSpace) hne] at h
  rw [List.getLast?_reverse] at h
  exact head?_dropWhile_not pyIsSpace l c h

/-- The last character of a stripped list is not whitespace. -/
theorem getLast?_stripL (l : List Char) (c : Char) (h : (stripL l).getLast? = some c) :
    pyIsSpace c = false := by
  unfold stripL at h
  rw [List.getLast?_reverse] at h
  exact head?_dropWhile_not pyIsSpace _ c h

/-- Stripping a list with no whitespace at either end is the identity. -/
theorem stripL_eq_self (l : List Char)
    (h1 : ∀ c, l.head? = some c → pyIsSpace c = false)
    (h2 : ∀ c, l.getLast? = some c → pyIsSpace c = false) :
    stripL l = l := by
  unfold stripL
  rw [dropWhile_eq_self pyIsSpace l h1]
  rw [dropWhile_eq_self pyIsSpace l.reverse
    (fun c hc => h2 c (by rwa [List.head?_reverse] at hc))]
  exact List.reverse_reverse l

/-- Stripping is idempotent. -/
theorem stripL_idem (l : List Char) : stripL (stripL l) = stripL l :=
  stripL_eq_self _ (head?_stripL l) (getLast?_stripL l)

/-- The head of a collapse in run state fails the predicate. -/
theorem head?_collapseRunsAux_true (p : Char → Bool) :
    ∀ (l : List Char) (c : Char), (collapseRunsAux p l true).head? = some c →
      p c = false := by
  intro l
  induction l with
  | nil => intro c hc; simp [collapseRunsAux] at hc
  | cons a t ih =>
    intro c hc
    simp only [collapseRunsAux] at hc
    by_cases hp : p a = true
    · rw [if_pos hp, if_pos trivial] at hc
      exact ih c hc
    · rw [if_neg hp] at hc
      simp only [List.head?_cons, Option.some.injEq] at hc
      subst hc
      simpa using hp

/-- A collapsed list never carries two adjacent characters of the
collapsed class. -/
theorem chain'_collapseRunsAux (p : Char → Bool) :
    ∀ (l : List Char) (b : Bool),
      List.Chain' (fun x y => ¬(p x = true ∧ p y = true)) (collapseRunsAux p l b) := by
  intro l
  induction l with
  | nil => intro b; simp [collapseRunsAux]
  | cons a t ih =>
    intro b
    simp only [collapseRunsAux]
    by_cases hp : p a = true
    · rw [if_pos hp]
      by_cases hb : b = true
      · rw [if_pos hb]
        exact ih true
      · rw [if_neg hb]
        refine List.chain'_cons'.mpr ⟨?_, ih true⟩
        intro y hy
        have hpy := head?_collapseRunsAux_true p t y hy
        intro hand
        rw [hand.2] at hpy
        simp at hpy
      -- note: when `b` is `true` the space has already been emitted
    · rw [if_neg hp]
      refine List.chain'_cons'.mpr ⟨?_, ih false⟩
      intro y _
      intro hand
      exact absurd hand.1 hp

/-- The whitespace-collapsing pass yields no two adjacent spaces. -/
theorem noTwoSpaces_collapseWs (l : List Char) :
    NoTwoSpaces (collapseRuns pyIsSpace l) := by
  refine (chain'_collapseRunsAux pyIsSpace l false).imp ?_
  intro a b h hand
  exact h ⟨by rw [hand.1]; rfl, by rw [hand.2]; rfl⟩

/-- The no-two-spaces invariant survives stripping. -/
theorem noTwoSpaces_stripL (l : List Char) (h : NoTwoSpaces l) :
    NoTwoSpaces (stripL l) := by
  unfold NoTwoSpaces stripL
  have hsymm : ∀ x y : Char, ¬(x = ' ' ∧ y = ' ') → ¬(y = ' ' ∧ x = ' ') :=
    fun x y hx hand => hx ⟨hand.2, hand.1⟩
  have hA : List.Chain' (fun a b => ¬(a = ' ' ∧ b = ' ')) (l.dropWhile pyIsSpace) :=
    h.suffix (List.dropWhile_suffix pyIsSpace)
  have hB : List.Chain' (fun a b => ¬(a = ' ' ∧ b = ' ')) (l.dropWhile pyIsSpace).reverse :=
    List.chain'_reverse.mpr (hA.imp fun a b hab => hsymm a b hab)
  have hC : List.Chain' (fun a b => ¬(a = ' ' ∧ b = ' '))
      ((l.dropWhile pyIsSpace).reverse.dropWhile pyIsSpace) :=
    hB.suffix (List.dropWhile_suffix pyIsSpace)
  exact List.chain'_reverse.mpr (hC.imp fun a b hab => hsymm a b hab)

/-- Lower-casing is the identity on already-clean characters. -/
theorem pyLower_eq_self (c : Char) (h : isLowerAlnum c = true ∨ c = ' ') :
    pyLower c = c := by
  unfold pyLower
  rw [if_neg]
  rcases h with h | rfl
  · simp only [isLowerAlnum, Bool.or_eq_true, Bool.and_eq_true, decide_eq_true_eq] at h
    omega
  · intro hand
    have : (' ').toNat = 32 := rfl
    omega

/-- Lower-casing a clean character list is the identity. -/
theorem map_pyLower_eq_self (l : List Char)
    (h : ∀ c ∈ l, isLowerAlnum c = true ∨ c = ' ') : l.map pyLower = l := by
  induction l with
  | nil => rfl
  | cons a t ih =>
    rw [List.map_cons, pyLower_eq_self a (h a (List.mem_cons_self _ _)),
      ih fun c hc => h c (List.mem_cons_of_mem _ hc)]

/-- Run collapsing is the identity when every collapsed-class character is
a space and no two spaces are adjacent (the state flag being true
additionally requires a head outside the class). -/
theorem collapseRunsAux_eq_self (p : Char → Bool) :
    ∀ (l : List Char) (b : Bool),
      (∀ c ∈ l, p c = true → c = ' ') → NoTwoSpaces l →
      (b = true → ∀ c, l.head? = some c → p c = false) →
      collapseRunsAux p l b = l := by
  intro l
  induction l with
  | nil => intro b _ _ _; rfl
  | cons a t ih =>
    intro b hc hch hb
    simp only [collapseRunsAux]
    by_cases hp : p a = true
    · have ha : a = ' ' := hc a (List.mem_cons_self _ _) hp
      cases b with
      | true => exact absurd (hb rfl a rfl) (by simp [hp])
      | false =>
        rw [if_pos hp, if_neg (by simp)]
        rw [← ha]
        congr 1
        refine ih true (fun c hcm hpc => hc c (List.mem_cons_of_mem _ hcm) hpc)
          ((List.chain'_cons'.mp hch).2) ?_
        intro _ c hhead
        have hns := (List.chain'_cons'.mp hch).1 c hhead
        by_cases hpc : p c = true
        · have : c = ' ' := hc c (List.mem_cons_of_mem _ (List.mem_of_mem_head? hhead)) hpc
          exact absurd ⟨ha, this⟩ hns
        · simpa using hpc
    · rw [if_neg hp]
      congr 1
      exact ih false (fun c hcm hpc => hc c (List.mem_cons_of_mem _ hcm) hpc)
        ((List.chain'_cons'.mp hch).2) (fun hfalse => nomatch hfalse)

/-- Run collapsing from the initial state. -/
theorem collapseRuns_eq_self (p : Char → Bool) (l : List Char)
    (hc : ∀ c ∈ l, p c = true → c = ' ') (hch : NoTwoSpaces l) :
    collapseRuns p l = l :=
  collapseRunsAux_eq_self p l false hc hch (fun hfalse => nomatch hfalse)

/-- Every character of a cleaned string is a lower-case alphanumeric or a
space. -/
theorem chars_cleanL (x : List Char) :
    ∀ c ∈ cleanL x, isLowerAlnum c = true ∨ c = ' ' := by
  intro c hc
  unfold cleanL at hc
  have hc1 := mem_stripL _ _ hc
  rcases mem_collapseRunsAux pyIsSpace _ _ c hc1 with h' | ⟨hm, _⟩
  · exact Or.inr h'
  · have hm2 := seasonStrip_subset _ hm
    rcases mem_collapseRunsAux _ _ _ c hm2 with h' | ⟨_, hp⟩
    · exact Or.inr h'
    · left
      simpa using hp

/-- A cleaned string has no two adjacent spaces. -/
theorem noTwoSpaces_cleanL (x : List Char) : NoTwoSpaces (cleanL x) :=
  noTwoSpaces_stripL _ (noTwoSpaces_collapseWs _)

/-- Lower-case alphanumeric characters are not whitespace. -/
theorem isLowerAlnum_not_space (c : Char) (h : isLowerAlnum c = true) :
    pyIsSpace c = false := by
  simp only [isLowerAlnum, Bool.or_eq_true, Bool.and_eq_true, decide_eq_true_eq] at h
  simp only [pyIsSpace, Bool.or_eq_false_iff, decide_eq_false_iff_not]
  omega

/-- The cleaning pipeline is the identity on a string that is already a
clean output and is left unchanged by the season-marker removal. -/
theorem cleanL_eq_self_of (l : List Char)
    (hchars : ∀ c ∈ l, isLowerAlnum c = true ∨ c = ' ')
    (hchain : NoTwoSpaces l)
    (hstrip : stripL l = l)
    (hseason : seasonStrip l = l) :
    cleanL l = l := by
  unfold cleanL
  rw [map_pyLower_eq_self l hchars]
  rw [collapseRuns_eq_self _ l ?hpunct hchain]
  case hpunct =>
    intro c hcm hpc
    rcases hchars c hcm with h' | h'
    · rw [h'] at hpc
      simp at hpc
    · exact h'
  rw [hseason]
  rw [collapseRuns_eq_self pyIsSpace l ?hws hchain]
  case hws =>
    intro c hcm hpc
    rcases hchars c hcm with h' | h'
    · rw [isLowerAlnum_not_space c h'] at hpc
      cases hpc
    · exact h'
  exact hstrip

/-- C2 (counterexample to the claim as stated): `clean` is not idempotent.
On `"s s1 1"` the first pass deletes the marker `s1`, and the glued
remainder `"s 1"` is itself a season marker deleted by the second pass. -/
theorem c2_counterexample :
    clean_text_for_search "s s1 1" = "s 1" ∧
      clean_text_for_search (clean_text_for_search "s s1 1") = "" ∧
      clean_text_for_search (clean_text_for_search "s s1 1") ≠
        clean_text_for_search "s s1 1" :=
  ⟨by decide, by decide, by decide⟩

/-- C2 (amended): `clean` is idempotent on every input whose cleaned form
contains no season marker (the season-marker deletion, the only
non-idempotent pass, fixes it). -/
theorem c2_idempotent_amended (x : String)
    (h : seasonStrip (clean_text_for_search x).data = (clean_text_for_search x).data) :
    clean_text_for_search (clean_text_for_search x) = clean_text_for_search x := by
  by_cases hx : x = ""
  · subst hx
    rfl
  · by_cases hy0 : clean_text_for_search x = ""
    · rw [hy0]
      rfl
    · have hdata : (clean_text_for_search x).data = cleanL x.data := by
        unfold clean_text_for_search
        rw [if_neg hx]
      have hZ : cleanL x.data = stripL (collapseRuns pyIsSpace
          (seasonStrip (collapseRuns (fun c => !isLowerAlnum c)
            (x.data.map pyLower)))) := rfl
      have hstrip : stripL (clean_text_for_search x).data = (clean_text_for_search x).data := by
        rw [hdata, hZ, stripL_idem]
      have hid : cleanL (clean_text_for_search x).data = (clean_text_for_search x).data := by
        refine cleanL_eq_self_of _ ?_ ?_ hstrip h
        · rw [hdata]
          exact chars_cleanL x.data
        · rw [hdata]
          exact noTwoSpaces_cleanL x.data
      show clean_text_for_search (clean_text_for_search x) = clean_text_for_search x
      rw [clean_text_for_search]
      rw [if_neg hy0, hid]

/-- Witness for the amended C2 at a clean input without season markers. -/
theorem c2_idempotent_amended_witness :
    seasonStrip (clean_text_for_search "Dark Knight").data =
        (clean_text_for_search "Dark Knight").data ∧
      clean_text_for_search (clean_text_for_search "Dark Knight") =
        clean_text_for_search "Dark Knight" :=
  ⟨by decide, c2_idempotent_amended "Dark Knight" (by decide)⟩
